import Mathlib

/-!
Shallow embedding of `sdisk` (src/sdisk/src/main.rs), a command-line
disk-usage analyzer with a scan-rank-select-delete pipeline.

The embedding models:
  * `confirmAnswer` — the stdin yes/no parsing of `confirm` (main.rs:355-363);
  * `removeLoop` — the removal loops shared by `cmd_top` (main.rs:186-196)
    and `cmd_stale` (main.rs:302-312, 321-330), with the filesystem modelled
    by an oracle `rm : FsEntry → Option String` returning the cause of a
    failure, and `anyhow::Context` modelled by `removeCtx`;
  * `cmdTop` / `cmdStale` — the post-scan halves of the two commands
    (main.rs:162-198 and main.rs:262-332) as pure functions from the
    collected entry list, the mode flags and the I/O oracles (multi-select
    result, stdin line) to the list of observable `Event`s plus the
    command's `Except` outcome;
  * `topEntries` — the file filter of the `cmd_top` walk (main.rs:137-150);
  * `rank` — the stable descending sort + truncation (main.rs:152-153,
    245-246), modelled with `List.mergeSort` (Rust's `sort_by_key` is a
    stable merge sort);
  * `last_used` / `isStale` / `staleItems` — the staleness classification
    of `cmd_stale` (main.rs:211, 222-241), with timestamps as `Int`
    seconds since the Unix epoch;
  * `dir_size` — the saturating recursive size sum (main.rs:342-353);
  * `collect_roots` — root-path collection and deduplication
    (main.rs:109-123).
-/

namespace SDisk

/-- One filesystem entry as carried through the selection/removal stages:
a path and whether `path.is_file()` holds (which picks `remove_file` vs
`remove_dir_all`), plus the size shown in listings. -/
structure FsEntry where
  path : String
  isF : Bool
  size : Nat
deriving Repr, DecidableEq

/-- Observable operator-facing events of a command run: the multi-select
prompt, the yes/no confirmation prompt, a dry-run "would remove" line, an
invocation of `remove_file`/`remove_dir_all` on a path, a "Removed" success
line, and the "Aborted." line. -/
inductive Event where
  | promptSelect
  | promptConfirm
  | wouldRemove (path : String)
  | attemptRemove (path : String)
  | removed (path : String)
  | aborted
deriving Repr, DecidableEq

/-- Command-level errors: an I/O error propagated by `?` from a prompt, or
a removal failure wrapped by `with_context` (context message, cause). -/
inductive CmdErr where
  | io (msg : String)
  | removeFail (ctx : String) (cause : String)
deriving Repr, DecidableEq

/-- Rust `str::trim`: strip leading and trailing whitespace characters. -/
def rustTrim (s : List Char) : List Char :=
  ((s.dropWhile Char.isWhitespace).reverse.dropWhile Char.isWhitespace).reverse

/-- Rust `str::to_lowercase`, at the character level. -/
def rustToLower (s : List Char) : List Char := s.map Char.toLower

/-- main.rs:355-363 — `confirm` accepts the line iff, after `trim` and
`to_lowercase`, it equals "y" or "yes". -/
def confirmAnswer (input : String) : Bool :=
  let trimmed := rustToLower (rustTrim input.data)
  trimmed == "y".data || trimmed == "yes".data

/-- The `with_context` message attached to a removal failure
(main.rs:190, 193, 306, 309, 324, 327). -/
def removeCtx (e : FsEntry) : String :=
  (if e.isF then "removing file " else "removing directory ") ++ e.path

/-- The removal loop of main.rs:186-196 / 302-312 / 321-330: for each
selected entry in order, invoke `remove_file` or `remove_dir_all`; on
failure the `?` operator returns the contextualised error immediately,
otherwise print "Removed" and continue.  Returns the event trace and the
loop's outcome. -/
def removeLoop (rm : FsEntry → Option String) : List FsEntry → List Event × Except CmdErr Unit
  | [] => ([], .ok ())
  | e :: rest =>
    match rm e with
    | some cause => ([Event.attemptRemove e.path], .error (.removeFail (removeCtx e) cause))
    | none =>
      let (evs, r) := removeLoop rm rest
      (Event.attemptRemove e.path :: Event.removed e.path :: evs, r)

/-- The event trace of a fully successful removal pass over a list. -/
def removedEvents : List FsEntry → List Event
  | [] => []
  | e :: rest => Event.attemptRemove e.path :: Event.removed e.path :: removedEvents rest

/-- Default entry used to model the `entries[idx]` indexing. -/
def dummyEntry : FsEntry := ⟨"", true, 0⟩

/-- main.rs:162-198 — the interactive tail of `cmd_top`, given the ranked
`entries` (after sort + take), the `interactive`, `yes` and `dry_run`
flags, and oracles for the `MultiSelect::interact()` result, the stdin
line read by `confirm`, and the filesystem removal outcome. -/
def cmdTop (entries : List FsEntry) (interactive yes dryRun : Bool)
    (select : Except String (List Nat)) (confirmLine : Except String String)
    (rm : FsEntry → Option String) : List Event × Except CmdErr Unit :=
  if interactive = true ∧ entries ≠ [] then
    match select with
    | .error e => ([Event.promptSelect], .error (.io e))
    | .ok selection =>
      if selection = [] then ([Event.promptSelect], .ok ())
      else if dryRun then
        (Event.promptSelect ::
          selection.map (fun i => Event.wouldRemove (entries.getD i dummyEntry).path), .ok ())
      else if yes = false then
        match confirmLine with
        | .error e => ([Event.promptSelect, Event.promptConfirm], .error (.io e))
        | .ok line =>
          if confirmAnswer line then
            let (evs, r) := removeLoop rm (selection.map (fun i => entries.getD i dummyEntry))
            (Event.promptSelect :: Event.promptConfirm :: evs, r)
          else ([Event.promptSelect, Event.promptConfirm, Event.aborted], .ok ())
      else
        let (evs, r) := removeLoop rm (selection.map (fun i => entries.getD i dummyEntry))
        (Event.promptSelect :: evs, r)
  else ([], .ok ())

/-- main.rs:262-332 — the tail of `cmd_stale` after the scan and listing,
given the collected `items`, the `interactive` flag, `prompt` (which is
`!yes` at the call site, main.rs:86), `dry_run`, and the same oracles as
`cmdTop`.  Note main.rs:262 returns before any prompt when `dry_run` is
set or the item list is empty; the inner dry-run branch (main.rs:291-297)
is kept for fidelity although unreachable. -/
def cmdStale (items : List FsEntry) (interactive prompt dryRun : Bool)
    (select : Except String (List Nat)) (confirmLine : Except String String)
    (rm : FsEntry → Option String) : List Event × Except CmdErr Unit :=
  if dryRun = true ∨ items = [] then ([], .ok ())
  else if interactive then
    match select with
    | .error e => ([Event.promptSelect], .error (.io e))
    | .ok selection =>
      if selection = [] then ([Event.promptSelect], .ok ())
      else if dryRun then
        (Event.promptSelect ::
          selection.map (fun i => Event.wouldRemove (items.getD i dummyEntry).path), .ok ())
      else
        match confirmLine with
        | .error e => ([Event.promptSelect, Event.promptConfirm], .error (.io e))
        | .ok line =>
          if confirmAnswer line then
            let (evs, r) := removeLoop rm (selection.map (fun i => items.getD i dummyEntry))
            (Event.promptSelect :: Event.promptConfirm :: evs, r)
          else ([Event.promptSelect, Event.promptConfirm, Event.aborted], .ok ())
  else if prompt then
    match confirmLine with
    | .error e => ([Event.promptConfirm], .error (.io e))
    | .ok line =>
      if confirmAnswer line then
        let (evs, r) := removeLoop rm items
        (Event.promptConfirm :: evs, r)
      else ([Event.promptConfirm, Event.aborted], .ok ())
  else removeLoop rm items

/-- One node yielded by the depth-bounded `WalkDir` traversal of `cmd_top`
(main.rs:138-142): its path, its depth below the root (`max_depth(3)`
guarantees `depth ≤ 3`; directories at depth 3 are yielded but not entered),
whether `path.is_file()` holds, and `path.metadata()` as `some` length when
readable. -/
structure WalkNode where
  path : String
  depth : Nat
  isF : Bool
  meta : Option Nat
deriving Repr, DecidableEq

/-- main.rs:143-149 — the entry collection of `cmd_top`: a walked node
becomes an entry `(path, meta.len())` exactly when `path.is_file()` holds
and its metadata is readable. -/
def topEntries (nodes : List WalkNode) : List (String × Nat) :=
  nodes.filterMap (fun n =>
    if n.isF then n.meta.map (fun len => (n.path, len)) else none)

/-- The comparator realising `sort_by_key(|(_, size)| Reverse(*size))`
(main.rs:152, 245): `a` sorts no later than `b` iff `b.2 ≤ a.2`. -/
def sizeLe (a b : String × Nat) : Bool := b.2 ≤ a.2

/-- main.rs:152-153 / 245-246 — the ranking step: stable sort by size
descending (Rust's `sort_by_key` is a stable merge sort), then truncate to
the first `k` entries. -/
def rank (entries : List (String × Nat)) (k : Nat) : List (String × Nat) :=
  (entries.mergeSort sizeLe).take k

/-- The metadata of one node in the stale scan (main.rs:225-231):
`accessed()` and `modified()` as optional timestamps (`Int` seconds since
the Unix epoch), whether the node is a regular file, and its `len()`. -/
structure MetaInfo where
  accessed : Option Int
  modified : Option Int
  isF : Bool
  len : Nat
deriving Repr, DecidableEq

/-- main.rs:227-231 — the best-available last-used timestamp: access time
when available, else modification time, else `UNIX_EPOCH` (0). -/
def last_used (m : MetaInfo) : Int :=
  ((m.accessed).orElse (fun _ => m.modified)).getD 0

/-- main.rs:211 — the staleness cutoff
`SystemTime::now() - Duration::from_secs(days * 24 * 60 * 60)`. -/
def cutoffOf (now : Int) (days : Nat) : Int := now - (days : Int) * 24 * 60 * 60

/-- main.rs:232 — an observed timestamp is classified stale iff
`time <= cutoff`. -/
def isStale (time cutoff : Int) : Bool := time ≤ cutoff

/-- One node yielded by the unbounded walk of `cmd_stale` (main.rs:223-225):
its path and its `symlink_metadata()` (`none` when unreadable, in which
case the node is skipped). -/
structure StaleNode where
  path : String
  meta : Option MetaInfo
deriving Repr, DecidableEq

/-- main.rs:222-241 — the stale-item collection: for each walked node with
readable metadata, compute `last_used`; when it is `≤ cutoff`, record
`(path, size, time)` where `size` is the file length for files and the
recursive directory size (oracle `dsz`, modelling
`dir_size(&path).unwrap_or(0)`) for directories. -/
def staleItems (nodes : List StaleNode) (cutoff : Int) (dsz : String → Nat) :
    List (String × Nat × Int) :=
  nodes.filterMap (fun n =>
    match n.meta with
    | none => none
    | some m =>
      let time := last_used m
      if isStale time cutoff then
        some (n.path, (if m.isF then m.len else dsz n.path), time)
      else none)

/-- Largest representable `u64` value. -/
def U64MAX : Nat := 2 ^ 64 - 1

/-- Rust `u64::saturating_add` (main.rs:348). -/
def saturating_add (a b : Nat) : Nat := min (a + b) U64MAX

/-- One node of the walk under a directory, as seen by `dir_size`
(main.rs:344-350): whether `p.is_file()` holds and `p.metadata()` as
`some` length when readable. -/
structure DNode where
  path : String
  isF : Bool
  meta : Option Nat
deriving Repr, DecidableEq

/-- main.rs:342-353 — `dir_size`: fold over the walked nodes, adding the
length of each readable regular file with saturating addition; always
returns `Ok`. -/
def dir_size (nodes : List DNode) : Except String Nat :=
  .ok (nodes.foldl (fun size n =>
    if n.isF then
      match n.meta with
      | some len => saturating_add size len
      | none => size
    else size) 0)

/-- Exact (unsaturated) total of the readable regular-file lengths under a
directory. -/
def sumFileSizes : List DNode → Nat
  | [] => 0
  | n :: rest => (if n.isF then n.meta.getD 0 else 0) + sumFileSizes rest

/-- main.rs:109-123 — `collect_roots`: start from the optional `--path`
root, append each positional path not already present, and fall back to the
current working directory (oracle `cwd`, modelling
`std::env::current_dir()?`) when the list is still empty. -/
def collect_roots (opt_root : Option String) (extra : List String)
    (cwd : Except String String) : Except String (List String) :=
  let roots : List String := match opt_root with | some r => [r] | none => []
  let roots := extra.foldl (fun rs p => if p ∈ rs then rs else rs ++ [p]) roots
  if roots = [] then
    match cwd with
    | .error e => .error e
    | .ok d => .ok [d]
  else .ok roots

/-- Keep-first deduplication of a path list against an accumulated set of
already-seen paths; the specification-level description of the loop in
`collect_roots`. -/
def dedupAgainst (seen : List String) : List String → List String
  | [] => []
  | p :: rest =>
    if p ∈ seen then dedupAgainst seen rest
    else p :: dedupAgainst (seen ++ [p]) rest

end SDisk

namespace SDisk

example : confirmAnswer "  YES  " = true := by rfl
example : confirmAnswer "" = false := by rfl
example : confirmAnswer "n" = false := by rfl

example :
    removeLoop (fun e => if e.path == "b" then some "denied" else none)
      [⟨"a", true, 1⟩, ⟨"b", true, 2⟩, ⟨"c", true, 3⟩] =
    ([Event.attemptRemove "a", Event.removed "a", Event.attemptRemove "b"],
      .error (.removeFail "removing file b" "denied")) := by rfl

example :
    cmdTop [⟨"f", true, 10⟩] false false false (.ok [0]) (.ok "y") (fun _ => none) =
      ([], .ok ()) := by rfl

example :
    cmdStale [⟨"f", true, 10⟩] false true false (.ok []) (.ok "y") (fun _ => none) =
      ([Event.promptConfirm, Event.attemptRemove "f", Event.removed "f"], .ok ()) := by rfl

/-- The fold of `dir_size` computes the saturated total: starting from any
accumulator below the `u64` ceiling, the result is the clamped sum. -/
theorem dir_size_foldl (nodes : List DNode) (acc : Nat) (h : acc ≤ U64MAX) :
    nodes.foldl (fun size n =>
      if n.isF then
        match n.meta with
        | some len => saturating_add size len
        | none => size
      else size) acc = min (acc + sumFileSizes nodes) U64MAX := by
  induction nodes generalizing acc with
  | nil => simp only [List.foldl_nil, sumFileSizes]; omega
  | cons n rest ih =>
    by_cases hf : n.isF = true
    · cases hm : n.meta with
      | some len =>
        have hsat : saturating_add acc len ≤ U64MAX := by
          simp only [saturating_add]; omega
        simp only [List.foldl_cons, sumFileSizes, hf, hm, if_true,
          Option.getD_some]
        rw [ih _ hsat]
        simp only [saturating_add]
        omega
      | none =>
        simp only [List.foldl_cons, sumFileSizes, hf, hm, if_true,
          Option.getD_none, Nat.zero_add]
        exact ih _ h
    · simp only [List.foldl_cons, sumFileSizes, hf, Bool.false_eq_true,
        if_false, Nat.zero_add]
      exact ih _ h

/-- C9: `dir_size` never returns an error; its value is the sum of the
metadata lengths of the readable regular files beneath the directory,
saturated at `u64::MAX` rather than wrapping; a file whose metadata is
unreadable contributes 0 (dropping it leaves the result unchanged). -/
theorem dir_size_spec (nodes : List DNode) :
    dir_size nodes = .ok (min (sumFileSizes nodes) U64MAX) ∧
    (∀ p rest, dir_size (⟨p, true, none⟩ :: rest) = dir_size rest) := by
  refine ⟨?_, fun p rest => rfl⟩
  simp only [dir_size, Except.ok.injEq]
  simpa using dir_size_foldl nodes 0 (Nat.zero_le _)

/-- C7 counterexample: a directory node sitting exactly at the depth
boundary (depth 3) of the `top` walk, with readable metadata of length
4096, yields no entry at all in the `top` report — the collection keeps
only regular files (main.rs:144). -/
theorem top_boundary_dir_counterexample :
    (WalkNode.mk "root/a/b/dir" 3 false (some 4096)).isF = false ∧
    topEntries [WalkNode.mk "root/a/b/dir" 3 false (some 4096)] = [] :=
  ⟨rfl, rfl⟩

/-- C7 amended: the entry set of the depth-bounded `top` report contains
exactly the walked regular files with readable metadata, each with its own
metadata length; directory nodes (at the boundary or anywhere else) never
appear as entries. -/
theorem top_entries_files_only (nodes : List WalkNode) (p : String) (len : Nat) :
    (p, len) ∈ topEntries nodes ↔
      ∃ n ∈ nodes, n.isF = true ∧ n.meta = some len ∧ n.path = p := by
  simp only [topEntries, List.mem_filterMap]
  constructor
  · rintro ⟨n, hn, hf⟩
    by_cases h : n.isF
    · rw [if_pos h] at hf
      rw [Option.map_eq_some'] at hf
      obtain ⟨len', hm, heq⟩ := hf
      cases heq
      exact ⟨n, hn, h, hm, rfl⟩
    · rw [if_neg h] at hf
      exact absurd hf (by simp)
  · rintro ⟨n, hn, hf, hm, hp⟩
    exact ⟨n, hn, by rw [if_pos hf, hm]; simp [hp]⟩

/-- C5: an observed node is classified stale exactly when its best-known
last-used timestamp is at or before the cutoff (boundary equality counts
as stale); the cutoff is `now - days*86400` seconds; and `last_used` is
the access time when available, else the modification time, else the Unix
epoch (0). -/
theorem stale_classification (nodes : List StaleNode) (cutoff : Int)
    (dsz : String → Nat) (x : String × Nat × Int) (now : Int) (days : Nat)
    (t : Int) (m : MetaInfo) :
    (x ∈ staleItems nodes cutoff dsz ↔
      ∃ n ∈ nodes, ∃ mi, n.meta = some mi ∧ last_used mi ≤ cutoff ∧
        x = (n.path, (if mi.isF then mi.len else dsz n.path), last_used mi)) ∧
    (isStale t (cutoffOf now days) = true ↔ t ≤ now - (days : Int) * 86400) ∧
    (∀ a, m.accessed = some a → last_used m = a) ∧
    (m.accessed = none → ∀ b, m.modified = some b → last_used m = b) ∧
    (m.accessed = none → m.modified = none → last_used m = 0) := by
  refine ⟨?_, ?_, ?_, ?_, ?_⟩
  · simp only [staleItems, List.mem_filterMap]
    constructor
    · rintro ⟨n, hn, hf⟩
      cases hm : n.meta with
      | none => rw [hm] at hf; exact absurd hf (by simp)
      | some mi =>
        rw [hm] at hf
        simp only at hf
        by_cases hs : isStale (last_used mi) cutoff
        · rw [if_pos hs] at hf
          cases hf
          exact ⟨n, hn, mi, hm, by simpa [isStale] using hs, rfl⟩
        · rw [if_neg hs] at hf
          exact absurd hf (by simp)
    · rintro ⟨n, hn, mi, hm, hle, hx⟩
      refine ⟨n, hn, ?_⟩
      rw [hm]
      simp only
      rw [if_pos (by simpa [isStale] using hle), hx]
  · simp only [isStale, cutoffOf, decide_eq_true_eq]
    constructor <;> intro h <;> omega
  · intro a ha; simp [last_used, ha, Option.orElse]
  · intro ha b hb; simp [last_used, ha, hb, Option.orElse]
  · intro ha hb; simp [last_used, ha, hb, Option.orElse]

/-- C5 witness: a file accessed exactly at the cutoff boundary is stale,
and the fallback chain of `last_used` evaluates as described. -/
theorem stale_classification_witness :
    ("f", 7, (10 : Int)) ∈
      staleItems [⟨"f", some ⟨some 10, some 99, true, 7⟩⟩] 10 (fun _ => 0) ∧
    isStale 10 (cutoffOf (86410 : Int) 1) = true ∧
    last_used ⟨none, some 5, true, 0⟩ = 5 ∧
    last_used ⟨none, none, false, 0⟩ = 0 := by
  refine ⟨?_, ?_, ?_, ?_⟩
  · exact ((stale_classification [⟨"f", some ⟨some 10, some 99, true, 7⟩⟩] 10
      (fun _ => 0) ("f", 7, (10 : Int)) 0 0 0 ⟨none, none, true, 0⟩).1).mpr
      ⟨⟨"f", some ⟨some 10, some 99, true, 7⟩⟩, by simp, ⟨some 10, some 99, true, 7⟩,
        rfl, by simp [last_used, Option.orElse], by simp [last_used, Option.orElse]⟩
  · exact ((stale_classification [] 0 (fun _ => 0) ("", 0, 0) 86410 1 10
      ⟨none, none, true, 0⟩).2.1).mpr (by norm_num)
  · exact (stale_classification [] 0 (fun _ => 0) ("", 0, 0) 0 0 0
      ⟨none, some 5, true, 0⟩).2.2.2.1 rfl 5 rfl
  · exact (stale_classification [] 0 (fun _ => 0) ("", 0, 0) 0 0 0
      ⟨none, none, false, 0⟩).2.2.2.2 rfl rfl

/-- The accumulation loop of `collect_roots` is keep-first deduplication
against the already-collected roots. -/
theorem collect_roots_foldl (extra : List String) (roots : List String) :
    extra.foldl (fun rs p => if p ∈ rs then rs else rs ++ [p]) roots =
      roots ++ dedupAgainst roots extra := by
  induction extra generalizing roots with
  | nil => simp [dedupAgainst]
  | cons p rest ih =>
    simp only [List.foldl_cons, dedupAgainst]
    by_cases h : p ∈ roots
    · rw [if_pos h, if_pos h, ih]
    · rw [if_neg h, if_neg h, ih]
      simp

/-- Unfolding `dedupAgainst` on a cons with nothing seen yet. -/
theorem dedupAgainst_nil_ne (p : String) (rest : List String) :
    dedupAgainst [] (p :: rest) = p :: dedupAgainst [p] rest := by
  simp [dedupAgainst]

/-- C10: `collect_roots` puts the `--path` root first when given, followed
by the positional paths in order with keep-first deduplication (a
positional equal to the `--path` root or to an earlier positional is
dropped); with no `--path` it returns the deduplicated positionals; with
neither it returns exactly the current working directory; and a successful
result is never empty. -/
theorem collect_roots_spec (r : String) (extra : List String)
    (cwd : Except String String) (opt : Option String) (l : List String) :
    (collect_roots (some r) extra cwd = .ok (r :: dedupAgainst [r] extra)) ∧
    (collect_roots none [] cwd = cwd.map (fun d => [d])) ∧
    (extra ≠ [] → collect_roots none extra cwd = .ok (dedupAgainst [] extra)) ∧
    (collect_roots opt extra cwd = .ok l → l ≠ []) := by
  refine ⟨?_, ?_, ?_, ?_⟩
  · simp [collect_roots, collect_roots_foldl]
  · cases cwd <;> simp [collect_roots, Except.map]
  · intro hne
    cases extra with
    | nil => exact absurd rfl hne
    | cons p rest =>
      simp only [collect_roots, collect_roots_foldl, List.nil_append]
      rw [dedupAgainst_nil_ne]
      simp
  · intro h
    cases opt with
    | some r' =>
      simp only [collect_roots, collect_roots_foldl, List.cons_append,
        List.nil_append] at h
      rw [if_neg (by simp)] at h
      cases h
      simp
    | none =>
      cases extra with
      | nil =>
        simp only [collect_roots, List.foldl_nil] at h
        rw [if_pos trivial] at h
        cases cwd with
        | error e => exact absurd h (by simp)
        | ok d =>
          simp only [Except.ok.injEq] at h
          cases h
          simp
      | cons p rest =>
        simp only [collect_roots, collect_roots_foldl, List.nil_append] at h
        rw [dedupAgainst_nil_ne] at h
        rw [if_neg (by simp)] at h
        cases h
        simp

/-- C10 witness: `--path /a` with positionals `/b /a /b /c` yields
`[/a, /b, /c]`; no `--path` and no positionals yields the working
directory; the result is non-empty. -/
theorem collect_roots_spec_witness :
    collect_roots (some "/a") ["/b", "/a", "/b", "/c"] (.ok "/cwd") =
      .ok ["/a", "/b", "/c"] ∧
    collect_roots none [] (.ok "/cwd") = .ok ["/cwd"] ∧
    collect_roots none ["/b", "/b"] (.error "x") = .ok ["/b"] ∧
    (["/a"] : List String) ≠ [] := by
  refine ⟨?_, ?_, ?_, ?_⟩
  · have h := (collect_roots_spec "/a" ["/b", "/a", "/b", "/c"] (.ok "/cwd")
      none []).1
    rw [h]; rfl
  · exact (collect_roots_spec "" [] (.ok "/cwd") none []).2.1
  · have h := (collect_roots_spec "" ["/b", "/b"] (.error "x") none []).2.2.1
      (by simp)
    rw [h]; rfl
  · exact (collect_roots_spec "" [] (.ok "/cwd") (some "/a") ["/a"]).2.2.2
      (by rfl)

/-- C1 counterexample: a selection of three entries where removal of the
second fails ("permission denied").  The loop returns immediately after
the failure: the first entry is removed and the failure is reported with
its path and cause, but the third entry is neither attempted nor removed —
the batch stops mid-way instead of continuing. -/
theorem remover_partial_failure_counterexample :
    removeLoop (fun e => if e.path == "b" then some "permission denied" else none)
        [⟨"a", true, 1⟩, ⟨"b", true, 2⟩, ⟨"c", true, 3⟩] =
      ([Event.attemptRemove "a", Event.removed "a", Event.attemptRemove "b"],
        .error (.removeFail "removing file b" "permission denied")) ∧
    Event.attemptRemove "c" ∉
      (removeLoop (fun e => if e.path == "b" then some "permission denied" else none)
        [⟨"a", true, 1⟩, ⟨"b", true, 2⟩, ⟨"c", true, 3⟩]).1 ∧
    Event.removed "c" ∉
      (removeLoop (fun e => if e.path == "b" then some "permission denied" else none)
        [⟨"a", true, 1⟩, ⟨"b", true, 2⟩, ⟨"c", true, 3⟩]).1 :=
  ⟨rfl, by decide, by decide⟩

/-- C1 amended: the removal batch processes entries in order until the
first failure.  When every removal succeeds, all entries are removed in
order and the run succeeds; when removal of some entry fails, the entries
before it are removed, the failing entry's error is reported with its path
and underlying cause, the run's overall status is that failure, and the
entries after it are not processed (the `?` operator stops the batch). -/
theorem remover_stops_at_first_failure (rm : FsEntry → Option String) :
    (∀ l, (∀ x ∈ l, rm x = none) →
      removeLoop rm l = (removedEvents l, .ok ())) ∧
    (∀ pre e post cause, (∀ x ∈ pre, rm x = none) → rm e = some cause →
      removeLoop rm (pre ++ e :: post) =
        (removedEvents pre ++ [Event.attemptRemove e.path],
          .error (.removeFail (removeCtx e) cause))) := by
  constructor
  · intro l h
    induction l with
    | nil => rfl
    | cons x rest ih =>
      simp only [removeLoop, h x (by simp), removedEvents]
      rw [ih (fun y hy => h y (by simp [hy]))]
  · intro pre e post cause hpre he
    induction pre with
    | nil => simp [removeLoop, he, removedEvents]
    | cons x rest ih =>
      simp only [List.cons_append, removeLoop, hpre x (by simp), removedEvents,
        List.append_eq]
      rw [ih (fun y hy => hpre y (by simp [hy]))]

/-- C1 witness: with a filesystem where only "b" fails, a fully successful
batch removes everything, and the batch `[a, b, c]` stops at `b` with the
contextualised error. -/
theorem remover_stops_at_first_failure_witness :
    removeLoop (fun e => if e.path == "b" then some "denied" else none)
        [⟨"a", true, 1⟩, ⟨"c", false, 3⟩] =
      ([Event.attemptRemove "a", Event.removed "a", Event.attemptRemove "c",
        Event.removed "c"], .ok ()) ∧
    removeLoop (fun e => if e.path == "b" then some "denied" else none)
        [⟨"a", true, 1⟩, ⟨"b", false, 2⟩, ⟨"c", true, 3⟩] =
      ([Event.attemptRemove "a", Event.removed "a", Event.attemptRemove "b"],
        .error (.removeFail "removing directory b" "denied")) := by
  constructor
  · exact (remover_stops_at_first_failure
      (fun e => if e.path == "b" then some "denied" else none)).1
      [⟨"a", true, 1⟩, ⟨"c", false, 3⟩] (by decide)
  · exact (remover_stops_at_first_failure
      (fun e => if e.path == "b" then some "denied" else none)).2
      [⟨"a", true, 1⟩] ⟨"b", false, 2⟩ [⟨"c", true, 3⟩] "denied"
      (by decide) (by decide)

/-- C2: with `dry_run = true`, neither `cmd_top` nor `cmd_stale`/`cmd_clean`
ever invokes `remove_file` or `remove_dir_all`, for every candidate set,
interactive/yes flag combination, selection, confirmation answer and
filesystem behaviour. -/
theorem dry_run_never_removes (entries items : List FsEntry)
    (interactive yes prompt : Bool) (select : Except String (List Nat))
    (confirmLine : Except String String) (rm : FsEntry → Option String)
    (p : String) :
    Event.attemptRemove p ∉
      (cmdTop entries interactive yes true select confirmLine rm).1 ∧
    Event.attemptRemove p ∉
      (cmdStale items interactive prompt true select confirmLine rm).1 := by
  constructor
  · simp only [cmdTop]
    by_cases h : interactive = true ∧ entries ≠ []
    · rw [if_pos h]
      cases select with
      | error e => simp
      | ok selection =>
        by_cases hs : selection = []
        · simp [hs]
        · simp [hs, List.mem_map]
    · rw [if_neg h]
      simp
  · simp [cmdStale]

/-- C6 counterexample: a dry run of `cmd_top` in interactive mode with a
non-empty entry list still presents the multi-select prompt — the dry-run
check (main.rs:175) sits after `MultiSelect::interact()` (main.rs:168-171),
so the short-circuit does not precede every prompting step. -/
theorem dry_run_prompt_counterexample :
    Event.promptSelect ∈
      (cmdTop [⟨"big.log", true, 100⟩] true false true (.ok [0]) (.ok "")
        (fun _ => none)).1 := by decide

/-- C6 amended: in the stale/clean pipeline the dry-run short-circuit does
precede every prompt (the trace is empty), but in the top pipeline dry-run
only precedes the yes/no confirmation; the interactive multi-select can
still be presented while dry-run is active. -/
theorem dry_run_prompt_amended (entries items : List FsEntry)
    (interactive yes prompt : Bool) (select : Except String (List Nat))
    (confirmLine : Except String String) (rm : FsEntry → Option String) :
    (cmdStale items interactive prompt true select confirmLine rm).1 = [] ∧
    Event.promptConfirm ∉
      (cmdTop entries interactive yes true select confirmLine rm).1 := by
  constructor
  · simp [cmdStale]
  · simp only [cmdTop]
    by_cases h : interactive = true ∧ entries ≠ []
    · rw [if_pos h]
      cases select with
      | error e => simp
      | ok selection =>
        by_cases hs : selection = []
        · simp [hs]
        · simp [hs, List.mem_map]
    · rw [if_neg h]
      simp

/-- C8 counterexample: `cmd_top` run non-interactively on a non-empty
result set (yes flag unset, no dry run) produces no confirmation prompt
and no removal at all — the whole selection/confirmation/removal block is
guarded by `interactive` (main.rs:162), so the run does not proceed to the
yes/no confirmation as claimed. -/
theorem non_interactive_top_counterexample :
    (cmdTop [⟨"f", true, 10⟩] false false false (.ok [0]) (.ok "y")
        (fun _ => none)).1 = [] ∧
    Event.promptConfirm ∉
      (cmdTop [⟨"f", true, 10⟩] false false false (.ok [0]) (.ok "y")
        (fun _ => none)).1 ∧
    Event.attemptRemove "f" ∉
      (cmdTop [⟨"f", true, 10⟩] false false false (.ok [0]) (.ok "y")
        (fun _ => none)).1 :=
  ⟨rfl, by decide, by decide⟩

/-- C8 amended: in the stale/clean pipeline, a non-interactive run with a
non-empty result set takes the full result set as the selection with no
per-item choice: with the yes flag unset it proceeds to the yes/no
confirmation and, on an affirmative answer, removes the whole set in
order (on refusal it aborts); with the yes flag set, confirmation is
skipped and removal of the whole set proceeds directly.  The top pipeline,
by contrast, never reaches selection, confirmation or removal when run
non-interactively. -/
theorem non_interactive_selection (items entries : List FsEntry)
    (yes dryRun : Bool) (select : Except String (List Nat))
    (confirmLine : Except String String) (rm : FsEntry → Option String)
    (line : String) (hne : items ≠ []) :
    (cmdStale items false false false select confirmLine rm =
      removeLoop rm items) ∧
    (confirmAnswer line = true →
      cmdStale items false true false select (.ok line) rm =
        (Event.promptConfirm :: (removeLoop rm items).1,
          (removeLoop rm items).2)) ∧
    (confirmAnswer line = false →
      cmdStale items false true false select (.ok line) rm =
        ([Event.promptConfirm, Event.aborted], .ok ())) ∧
    (cmdTop entries false yes dryRun select confirmLine rm = ([], .ok ())) := by
  refine ⟨?_, ?_, ?_, ?_⟩
  · simp [cmdStale, hne]
  · intro hy
    simp [cmdStale, hne, hy]
  · intro hn
    simp [cmdStale, hne, hn]
  · simp [cmdTop]

/-- C8 witness: a concrete non-interactive stale run over two items removes
both after a "y" answer, aborts on "n", removes directly with the yes flag
set, and a non-interactive top run does nothing. -/
theorem non_interactive_selection_witness :
    cmdStale [⟨"a", true, 1⟩, ⟨"b", false, 2⟩] false false false (.ok [])
        (.ok "") (fun _ => none) =
      ([Event.attemptRemove "a", Event.removed "a", Event.attemptRemove "b",
        Event.removed "b"], .ok ()) ∧
    cmdStale [⟨"a", true, 1⟩] false true false (.ok []) (.ok " Y ")
        (fun _ => none) =
      ([Event.promptConfirm, Event.attemptRemove "a", Event.removed "a"],
        .ok ()) ∧
    cmdStale [⟨"a", true, 1⟩] false true false (.ok []) (.ok "n")
        (fun _ => none) =
      ([Event.promptConfirm, Event.aborted], .ok ()) ∧
    cmdTop [⟨"a", true, 1⟩] false false false (.ok [0]) (.ok "y")
        (fun _ => none) = ([], .ok ()) := by
  refine ⟨?_, ?_, ?_, ?_⟩
  · have h := (non_interactive_selection [⟨"a", true, 1⟩, ⟨"b", false, 2⟩] []
      false false (.ok []) (.ok "") (fun _ => none) "" (by decide)).1
    rw [h]; rfl
  · have h := (non_interactive_selection [⟨"a", true, 1⟩] [] false false
      (.ok []) (.ok " Y ") (fun _ => none) " Y " (by decide)).2.1 (by rfl)
    rw [h]; rfl
  · exact (non_interactive_selection [⟨"a", true, 1⟩] [] false false
      (.ok []) (.ok "n") (fun _ => none) "n" (by decide)).2.2.1 (by rfl)
  · exact (non_interactive_selection [⟨"x", true, 1⟩] [⟨"a", true, 1⟩] false
      false (.ok [0]) (.ok "y") (fun _ => none) "y" (by decide)).2.2.2

/-- C3: a confirmation answer is affirmative exactly when the input line,
after trimming whitespace and lowercasing, equals "y" or "yes"; the empty
line is a refusal; and a refused confirmation leaves the batch with zero
removals in both pipelines (in `cmd_top` whenever the yes flag is unset,
in `cmd_stale` whenever a confirmation can be reached at all, i.e. in
interactive mode or with the prompt flag set). -/
theorem confirm_semantics (s line : String) (entries items : List FsEntry)
    (interactive prompt dryRun : Bool) (select : Except String (List Nat))
    (rm : FsEntry → Option String) (p : String) :
    (confirmAnswer s = true ↔
      (rustToLower (rustTrim s.data) = "y".data ∨
        rustToLower (rustTrim s.data) = "yes".data)) ∧
    (confirmAnswer "" = false) ∧
    (confirmAnswer line = false →
      Event.attemptRemove p ∉
        (cmdTop entries interactive false dryRun select (.ok line) rm).1) ∧
    (confirmAnswer line = false → (interactive = true ∨ prompt = true) →
      Event.attemptRemove p ∉
        (cmdStale items interactive prompt dryRun select (.ok line) rm).1) := by
  refine ⟨?_, by rfl, ?_, ?_⟩
  · simp [confirmAnswer]
  · intro hn
    simp only [cmdTop]
    by_cases h : interactive = true ∧ entries ≠ []
    · rw [if_pos h]
      cases select with
      | error e => simp
      | ok selection =>
        by_cases hs : selection = []
        · simp [hs]
        · by_cases hd : dryRun = true
          · simp [hs, hd, List.mem_map]
          · simp [hs, hd, hn]
    · rw [if_neg h]
      simp
  · intro hn hreach
    simp only [cmdStale]
    by_cases hd : dryRun = true ∨ items = []
    · rw [if_pos hd]
      simp
    · rw [if_neg hd]
      have hd2 : dryRun = false := by
        cases hdr : dryRun with
        | false => rfl
        | true => exact absurd (Or.inl hdr) hd
      by_cases hi : interactive = true
      · rw [hi, if_pos rfl]
        cases select with
        | error e => simp
        | ok selection =>
          by_cases hs : selection = []
          · simp [hs]
          · simp [hs, hd2, hn]
      · have hp : prompt = true := by
          cases hreach with
          | inl h => exact absurd h hi
          | inr h => exact h
        simp only [Bool.not_eq_true] at hi
        rw [hi, hp]
        simp [hn]

/-- C3 witness: " YES " (after trim and lowercase) is affirmative; a
refused confirmation ("n") performs zero removals in a concrete
non-interactive stale run and a concrete interactive top run. -/
theorem confirm_semantics_witness :
    confirmAnswer " YES " = true ∧
    Event.attemptRemove "f" ∉
      (cmdTop [⟨"f", true, 10⟩] true false false (.ok [0]) (.ok "n")
        (fun _ => none)).1 ∧
    Event.attemptRemove "f" ∉
      (cmdStale [⟨"f", true, 10⟩] false true false (.ok []) (.ok "n")
        (fun _ => none)).1 := by
  refine ⟨?_, ?_, ?_⟩
  · exact (confirm_semantics " YES " "" [] [] false false false (.ok [])
      (fun _ => none) "").1.mpr (by decide)
  · exact (confirm_semantics "" "n" [⟨"f", true, 10⟩] [] true false false
      (.ok [0]) (fun _ => none) "f").2.2.1 (by rfl)
  · exact (confirm_semantics "" "n" [] [⟨"f", true, 10⟩] false true false
      (.ok []) (fun _ => none) "f").2.2.2 (by rfl) (Or.inr rfl)

/-- Transitivity of `sizeLe`. -/
theorem sizeLe_trans (a b c : String × Nat) (h1 : sizeLe a b) (h2 : sizeLe b c) :
    sizeLe a c := by
  simp only [sizeLe, decide_eq_true_eq] at *
  omega

/-- Totality of `sizeLe`. -/
theorem sizeLe_total (a b : String × Nat) : sizeLe a b || sizeLe b a := by
  simp only [sizeLe, Bool.or_eq_true, decide_eq_true_eq]
  omega

/-- C4: for every collected entry list and every limit `k`, the ranking
step returns a list of length exactly `min k (length entries)` that is
sorted non-increasing by size and is a prefix of the stable descending
sort of the input, which is itself a permutation of the input; stability
means that for each size value the entries of that size appear in the
sorted permutation exactly in their input (walk) order; `k = 0` yields the
empty list and `k ≥ length entries` yields the whole sorted list. -/
theorem rank_spec (entries : List (String × Nat)) (k : Nat) (s : Nat) :
    (rank entries k).length = min k entries.length ∧
    (rank entries k).Pairwise (fun a b => b.2 ≤ a.2) ∧
    (∃ rest, entries.mergeSort sizeLe = rank entries k ++ rest) ∧
    (entries.mergeSort sizeLe).Perm entries ∧
    ((entries.mergeSort sizeLe).filter (fun e => e.2 == s) =
      entries.filter (fun e => e.2 == s)) ∧
    rank entries 0 = [] ∧
    (entries.length ≤ k → rank entries k = entries.mergeSort sizeLe) := by
  have hperm := List.mergeSort_perm entries sizeLe
  refine ⟨?_, ?_, ?_, hperm, ?_, rfl, ?_⟩
  · simp [rank]
  · have hsorted : (entries.mergeSort sizeLe).Pairwise (fun a b => sizeLe a b) :=
      List.sorted_mergeSort (fun a b c => sizeLe_trans a b c) sizeLe_total entries
    have htake : (rank entries k).Pairwise (fun a b => sizeLe a b) :=
      List.Pairwise.sublist (List.take_sublist k (entries.mergeSort sizeLe))
        hsorted
    exact htake.imp (fun h => by simpa [sizeLe] using h)
  · exact ⟨(entries.mergeSort sizeLe).drop k,
      (List.take_append_drop k (entries.mergeSort sizeLe)).symm⟩
  · have hfsub : List.Sublist (entries.filter (fun e => e.2 == s)) entries :=
      List.filter_sublist entries
    have hpw : (entries.filter (fun e => e.2 == s)).Pairwise
        (fun a b => sizeLe a b) := by
      apply List.pairwise_of_forall_mem_list
      intro a ha b hb
      have ha2 : a.2 = s := by simpa using (List.mem_filter.mp ha).2
      have hb2 : b.2 = s := by simpa using (List.mem_filter.mp hb).2
      simp [sizeLe, ha2, hb2]
    have hsub2 : List.Sublist (entries.filter (fun e => e.2 == s))
        (entries.mergeSort sizeLe) :=
      List.sublist_mergeSort (fun a b c => sizeLe_trans a b c) sizeLe_total
        hpw hfsub
    have hsub3 : List.Sublist
        ((entries.filter (fun e => e.2 == s)).filter (fun e => e.2 == s))
        ((entries.mergeSort sizeLe).filter (fun e => e.2 == s)) :=
      hsub2.filter (fun e => e.2 == s)
    have hself : (entries.filter (fun e => e.2 == s)).filter
        (fun e => e.2 == s) = entries.filter (fun e => e.2 == s) :=
      List.filter_eq_self.mpr (fun a ha => (List.mem_filter.mp ha).2)
    rw [hself] at hsub3
    have hlen : ((entries.mergeSort sizeLe).filter (fun e => e.2 == s)).length
        = (entries.filter (fun e => e.2 == s)).length :=
      (hperm.filter (fun e => e.2 == s)).length_eq
    exact (hsub3.eq_of_length hlen.symm).symm
  · intro hk
    have : entries.length ≤ k := hk
    simp only [rank]
    exact List.take_of_length_le (by simpa using this)

/-- C4 witness: ranking four entries (with a size tie between the first
and last input entries) at limits 0, 2 and 10: the limit bound, the
descending order, stability of the tie, and the over-limit behaviour all
evaluate as stated. -/
theorem rank_spec_witness :
    (rank [("a", 5), ("b", 9), ("c", 2), ("d", 5)] 2).length = 2 ∧
    rank [("a", 5), ("b", 9), ("c", 2), ("d", 5)] 2 = [("b", 9), ("a", 5)] ∧
    ([("a", 5), ("b", 9), ("c", 2), ("d", 5)] :
        List (String × Nat)).mergeSort sizeLe =
      [("b", 9), ("a", 5), ("d", 5), ("c", 2)] ∧
    rank [("a", 5), ("b", 9), ("c", 2), ("d", 5)] 0 = [] ∧
    rank [("a", 5), ("b", 9), ("c", 2), ("d", 5)] 10 =
      [("b", 9), ("a", 5), ("d", 5), ("c", 2)] := by
  refine ⟨?_, ?_, ?_, ?_, ?_⟩
  · have h := (rank_spec [("a", 5), ("b", 9), ("c", 2), ("d", 5)] 2 5).1
    rw [h]
    norm_num
  · simp [rank, List.mergeSort, List.merge, sizeLe]
  · simp [List.mergeSort, List.merge, sizeLe]
  · exact (rank_spec [("a", 5), ("b", 9), ("c", 2), ("d", 5)] 0 5).2.2.2.2.2.1
  · have h := (rank_spec [("a", 5), ("b", 9), ("c", 2), ("d", 5)] 10 5).2.2.2.2.2.2
      (by norm_num)
    rw [h]
    simp [List.mergeSort, List.merge, sizeLe]

end SDisk
